import Mathlib

/-!
Verification development for the pulse repository scanner.

The definitions below are a shallow embedding of the Go sources under
internal/core (analyzer.go, pool.go, scanner.go, types.go).  Machine
integers are modelled as Int or Nat (no overflow is relevant here:
counts are small and Go ints are 64-bit), time.Time and time.Duration
are modelled as Int (an instant / a span on one absolute axis),
fallible operations return Option or Except, and the go-git library
(an external dependency of the repository, not part of its sources)
is modelled by the documented semantics of the operations the code
calls: object lookup by hash, reference lookup, the default commit
log iterator (depth-first preorder over parents with a seen set, as
implemented by NewCommitPreorderIter), and MergeBase (the best common
ancestors, those common ancestors not reachable from another common
ancestor).
-/

/-- Newline character, used when modelling the byte output of
the external git status probe. -/
def nl : Char := Char.ofNat 10

/-- Models a go-git commit object: hash, parent hashes in order,
author name, full message, and the commit timestamp.  The model keeps
one timestamp per commit (the code reads Author.When for last
activity and recent history; the Since filter of go-git reads the
committer date, which this model identifies with the author date).
addition and deletion model the totals of Stats() for the commit. -/
structure CommitObj where
  hash : Nat
  parents : List Nat
  author : String
  message : String
  timeWhen : Int
  addition : Nat
  deletion : Nat
deriving Repr, DecidableEq

/-- Models the resolved HEAD reference of a repository: either a
branch (with its short name and commit hash) or a detached head. -/
inductive HeadRef where
  | branch (name : String) (hash : Nat)
  | detached (hash : Nat)
deriving Repr, DecidableEq

/-- Hash carried by a head reference. -/
def HeadRef.hash : HeadRef → Nat
  | .branch _ h => h
  | .detached h => h

/-- Models an opened git repository as the analyzer observes it:
the commit object store, the resolved HEAD (none models a Head()
error), the other references by full name (used for the
refs/remotes/origin/... lookup), and the raw byte output of the
external process probe git status --porcelain for this repository
worktree (none models a failure of that command). -/
structure Repo where
  objects : List CommitObj
  headRef : Option HeadRef
  refs : List (String × Nat)
  porcelain : Option (List Char)
deriving Repr, DecidableEq

/-- Models go-git object lookup by hash (Repository.CommitObject). -/
def Repo.find? (repo : Repo) (h : Nat) : Option CommitObj :=
  List.find? (fun c => c.hash == h) repo.objects

/-- RepoStatus from types.go. -/
structure Commit where
  Hash : String
  Author : String
  Message : String
  Timestamp : Int
deriving Repr, DecidableEq

/-- LinesChanged from types.go. -/
structure LinesChanged where
  Added : Nat
  Removed : Nat
  Period : Int
deriving Repr, DecidableEq

/-- RepoStatus from types.go.  Field types follow the Go struct;
counts are Nat (they are list lengths), times are Int instants. -/
structure RepoStatus where
  Name : String
  Path : String
  Branch : String
  IsClean : Bool
  ChangedFiles : Nat
  LastCommitTime : Int
  UnpushedCommits : Nat
  UnpulledCommits : Nat
  IsGhost : Bool
  RecentCommits : List Commit
  LinesChanged : Option LinesChanged
deriving Repr, DecidableEq

/-- ScanError from types.go. -/
structure ScanError where
  Path : String
  Message : String
deriving Repr, DecidableEq

/-- ScanConfig from types.go. -/
structure ScanConfig where
  RootPath : String
  MaxDepth : Int
  DetailMode : Bool
  GhostThreshold : Int
  WorkerCount : Int
deriving Repr, DecidableEq

/-- ScanResult from types.go.  DailyCommits (a Go map holding at most
the key for today) is modelled as an association list keyed by day
index; ScanDuration is an Int duration supplied by the caller of the
model (wall-clock measurement is outside the embedding). -/
structure ScanResult where
  Repos : List RepoStatus
  TotalRepos : Nat
  NonGitPaths : List String
  DailyCommits : List (Int × Nat)
  ScanDuration : Int
  Errors : List ScanError
deriving Repr, DecidableEq

/-- Analyzer from analyzer.go. -/
structure Analyzer where
  detailMode : Bool
  ghostThreshold : Int
deriving Repr, DecidableEq

/-- Pool from pool.go. -/
structure Pool where
  workerCount : Int
deriving Repr, DecidableEq

/-- Models context.Context as the analysis code could observe it: the
only observable fact is whether the context has been cancelled. -/
structure Ctx where
  cancelled : Bool
deriving Repr, DecidableEq

instance {ε α : Type} [DecidableEq ε] [DecidableEq α] : DecidableEq (Except ε α) :=
  fun a b =>
    match a, b with
    | .ok x, .ok y =>
      if h : x = y then isTrue (by rw [h]) else isFalse (fun he => h (Except.ok.inj he))
    | .error x, .error y =>
      if h : x = y then isTrue (by rw [h]) else isFalse (fun he => h (Except.error.inj he))
    | .ok _, .error _ => isFalse (fun he => Except.noConfusion he)
    | .error _, .ok _ => isFalse (fun he => Except.noConfusion he)

/-- Weight of the not-yet-seen part of the object store: each unseen
commit contributes one visit step plus one stack entry per parent.
Used to bound the number of steps of the log walker. -/
def sumPend : List CommitObj → List Nat → Nat
  | [], _ => 0
  | c :: t, seen => (if c.hash ∈ seen then 0 else c.parents.length + 1) + sumPend t seen

/-- sumPend for a repository object store. -/
def pending (repo : Repo) (seen : List Nat) : Nat :=
  sumPend repo.objects seen

/-- Fuelled form of the go-git depth-first preorder commit walker
(NewCommitPreorderIter): pop the top of the stack; skip it if seen;
stop with an error (modelled as end of output) if the object is
missing from the store; otherwise yield it and push its parents, in
order, on top of the stack. -/
def walkF (repo : Repo) : Nat → List Nat → List Nat → List CommitObj
  | 0, _, _ => []
  | fuel + 1, stack, seen =>
    match stack with
    | [] => []
    | h :: rest =>
      if h ∈ seen then walkF repo fuel rest seen
      else
        match repo.find? h with
        | none => []
        | some c => c :: walkF repo fuel (c.parents ++ rest) (h :: seen)

/-- The commit walker with sufficient fuel (proved sufficient by
walkF_congr below): the full output of the go-git preorder iterator
started on the given stack with the given seen set. -/
def walk (repo : Repo) (stack seen : List Nat) : List CommitObj :=
  walkF repo (pending repo seen + stack.length + 1) stack seen

/-- Output of repo.Log from a given starting hash (go-git Log with
From set, default order), as the list of commits the iterator yields. -/
def logFromHash (repo : Repo) (h : Nat) : List CommitObj :=
  walk repo [h] []

/-- Commits reachable from a hash, as the walker visits them. -/
def reachList (repo : Repo) (h : Nat) : List CommitObj :=
  logFromHash repo h

/-- Hashes reachable from a hash, in walker order. -/
def reachHashes (repo : Repo) (h : Nat) : List Nat :=
  (reachList repo h).map (fun c => c.hash)

/-- Mathematical reachability along parent pointers in the commit
graph: the reflexive transitive closure of the child-to-parent
relation, starting at a hash. -/
inductive Reaches (repo : Repo) : Nat → Nat → Prop
  | refl (h : Nat) : Reaches repo h h
  | step (h p k : Nat) (c : CommitObj) (hc : c ∈ repo.objects) (hh : c.hash = h)
      (hp : p ∈ c.parents) (htail : Reaches repo p k) : Reaches repo h k

/-- firstLine from analyzer.go: the prefix of a message before the
first newline. -/
def firstLine (s : String) : String :=
  String.mk (s.data.takeWhile (fun c => decide (¬ c = nl)))

/-- Models Hash.String()[:7]: the 40-character zero-padded lowercase
hexadecimal form of the hash, truncated to 7 characters. -/
def shortHash (h : Nat) : String :=
  let ds := Nat.toDigits 16 h
  String.mk ((List.replicate (40 - ds.length) (Char.ofNat 48) ++ ds).take 7)

/-- The path separator character. -/
def sep : Char := Char.ofNat 47

/-- Models filepath.Base: the last path element after trailing
separators are removed, with the Go conventions for the empty path
(a dot) and an all-separator path (the root). -/
def baseName (p : String) : String :=
  let rev := p.data.reverse
  let trimmed := rev.dropWhile (fun c => c == sep)
  if p.data = [] then String.mk [Char.ofNat 46]
  else if trimmed = [] then String.mk [sep]
  else String.mk ((trimmed.takeWhile (fun c => decide (¬ c = sep))).reverse)

/-- Models bytes.TrimRight(out, newline): drop trailing newlines. -/
def trimRightNewlines (out : List Char) : List Char :=
  ((out.reverse.dropWhile (fun c => c == nl))).reverse

/-- RepoStatus as Analyze first builds it: name and path set, every
other field at its Go zero value. -/
def newRepoStatus (name path : String) : RepoStatus :=
  { Name := name, Path := path, Branch := String.mk [], IsClean := false,
    ChangedFiles := 0, LastCommitTime := 0, UnpushedCommits := 0,
    UnpulledCommits := 0, IsGhost := false, RecentCommits := [],
    LinesChanged := none }

/-- analyzeBranch from analyzer.go: head resolution failure yields
the sentinel unknown; a branch head yields its short name; a
detached head resolves with the short name HEAD. -/
def analyzeBranch (repo : Repo) (st : RepoStatus) : RepoStatus :=
  match repo.headRef with
  | none => { st with Branch := "unknown" }
  | some (.branch name _) => { st with Branch := name }
  | some (.detached _) => { st with Branch := "HEAD" }

/-- analyzeWorktree from analyzer.go: on probe failure the status is
returned unchanged; otherwise the changed-file count is the number of
newlines after trailing newlines are trimmed, plus one when the
output is non-empty, and IsClean records whether the output is empty. -/
def analyzeWorktree (repo : Repo) (st : RepoStatus) : RepoStatus :=
  match repo.porcelain with
  | none => st
  | some out =>
    let lines0 := List.count nl (trimRightNewlines out)
    let lines := if 0 < out.length then lines0 + 1 else lines0
    { st with IsClean := decide (out.length = 0), ChangedFiles := lines }

/-- analyzeLastCommit from analyzer.go: Log with no From starts at
HEAD (failing if HEAD does not resolve); the first commit the
iterator yields supplies the last-commit timestamp; any failure
leaves the zero timestamp. -/
def analyzeLastCommit (repo : Repo) (st : RepoStatus) : RepoStatus :=
  match repo.headRef with
  | none => st
  | some r =>
    match (logFromHash repo r.hash).head? with
    | none => st
    | some c => { st with LastCommitTime := c.timeWhen }

/-- The full reference name of a remote-tracking branch, as built by
plumbing.NewRemoteReferenceName with remote origin. -/
def remoteRefName (branch : String) : String :=
  "refs/remotes/origin/" ++ branch

/-- Models go-git Commit.MergeBase by its documented semantics: the
best common ancestors of the two commits, i.e. the common ancestors
that cannot be reached from another common ancestor.  The relative
order of several best common ancestors is not significant in this
model (go-git yields them in an internal walk order); the claims
below only depend on it through histories with at most one best
common ancestor. -/
def mergeBase (repo : Repo) (lc rc : CommitObj) : List CommitObj :=
  let commonA := (reachList repo lc.hash).filter
    (fun c => decide (c.hash ∈ reachHashes repo rc.hash))
  commonA.filter (fun c => decide (¬ ∃ d ∈ commonA, ¬ d.hash = c.hash ∧ c.hash ∈ reachHashes repo d.hash))

/-- countCommitsBetween from analyzer.go: zero when the endpoints
coincide or the log cannot start; otherwise the number of commits the
log iterator started at the target yields strictly before the first
occurrence of the other endpoint (the sentinel stop pseudo-error),
counting every yielded commit when the endpoint is never reached. -/
def countCommitsBetween (repo : Repo) (fromH toH : Nat) : Nat :=
  if fromH = toH then 0
  else (((logFromHash repo toH).map (fun c => c.hash)).takeWhile (fun h => decide (¬ h = fromH))).length

/-- analyzeRemoteStatus from analyzer.go: requires a branch head, a
remote-tracking reference for origin and the same branch, differing
local and remote hashes, both commit objects, and a non-empty merge
base; then the unpushed and unpulled counts are commit walks from the
local and the remote hash down to the first merge base.  Any earlier
failure returns the status unchanged. -/
def analyzeRemoteStatus (repo : Repo) (st : RepoStatus) : RepoStatus :=
  match repo.headRef with
  | some (.branch name localHash) =>
    match List.lookup (remoteRefName name) repo.refs with
    | none => st
    | some remoteHash =>
      if localHash = remoteHash then st
      else
        match repo.find? localHash with
        | none => st
        | some localCommit =>
          match repo.find? remoteHash with
          | none => st
          | some remoteCommit =>
            match mergeBase repo localCommit remoteCommit with
            | [] => st
            | base :: _ =>
              { st with UnpushedCommits := countCommitsBetween repo base.hash localHash,
                        UnpulledCommits := countCommitsBetween repo base.hash remoteHash }
  | _ => st

/-- One Commit record of the recent-history list, as built in
analyzeRecentCommits. -/
def commitRecord (c : CommitObj) : Commit :=
  { Hash := shortHash c.hash, Author := c.author,
    Message := firstLine c.message, Timestamp := c.timeWhen }

/-- The bounded loop of analyzeRecentCommits: up to n iterations,
stopping early when the iterator is exhausted. -/
def recentLoop : List CommitObj → Nat → List Commit
  | _, 0 => []
  | [], _ + 1 => []
  | c :: rest, n + 1 => commitRecord c :: recentLoop rest n

/-- analyzeRecentCommits from analyzer.go: iterate the log from HEAD
at most five times, appending a record per commit; failures leave the
list as it was. -/
def analyzeRecentCommits (repo : Repo) (st : RepoStatus) : RepoStatus :=
  match repo.headRef with
  | none => st
  | some r =>
    { st with RecentCommits := st.RecentCommits ++ recentLoop (logFromHash repo r.hash) 5 }

/-- Seven days as an Int duration in nanoseconds (7 * 24 * time.Hour). -/
def weekDuration : Int := 7 * 24 * 60 * 60 * 1000000000

/-- analyzeLinesChanged from analyzer.go: sum the per-commit stats of
the commits of the last week reachable from HEAD (the Since option of
go-git skips commits dated before the cutoff while continuing the
walk), and record the summary only when one of the sums is non-zero. -/
def analyzeLinesChanged (now : Int) (repo : Repo) (st : RepoStatus) : RepoStatus :=
  match repo.headRef with
  | none => st
  | some r =>
    let since := now - weekDuration
    let recent := (logFromHash repo r.hash).filter (fun c => decide (since ≤ c.timeWhen))
    let added := (recent.map (fun c => c.addition)).sum
    let removed := (recent.map (fun c => c.deletion)).sum
    if 0 < added ∨ 0 < removed then
      { st with LinesChanged := some { Added := added, Removed := removed, Period := weekDuration } }
    else st

/-- The four unconditional phases of Analyze from analyzer.go, in
source order: branch, worktree probe, last commit, remote status,
starting from the freshly constructed status. -/
def remotePhase (path : String) (repo : Repo) : RepoStatus :=
  analyzeRemoteStatus repo
    (analyzeLastCommit repo (analyzeWorktree repo (analyzeBranch repo (newRepoStatus (baseName path) path))))

/-- The phases of Analyze from analyzer.go before the ghost flag:
the unconditional chain, then in detail mode the recent history and
the windowed line counts. -/
def pipelineCore (a : Analyzer) (now : Int) (path : String) (repo : Repo) : RepoStatus :=
  if a.detailMode then analyzeLinesChanged now repo (analyzeRecentCommits repo (remotePhase path repo))
  else remotePhase path repo

/-- The per-repository pipeline of Analyze from analyzer.go: the
phase chain, and finally the ghost flag computed from the then-final
last-commit timestamp (time.Since compared strictly against the
threshold). -/
def analyzePipeline (a : Analyzer) (now : Int) (path : String) (repo : Repo) : RepoStatus :=
  let st5 := pipelineCore a now path repo
  { st5 with IsGhost := decide (now - st5.LastCommitTime > a.ghostThreshold) }

/-- Analyze from analyzer.go: opening the repository is the only
fatal step; its error message is surfaced, otherwise the pipeline
result is returned.  The context is received (it is only used for
tracing in the source, which the model omits) and the environment
models git.PlainOpen on a path. -/
def Analyze (a : Analyzer) (_ctx : Ctx) (now : Int) (env : String → Except String Repo) (path : String) : Except String RepoStatus :=
  match env path with
  | .error e => .error e
  | .ok repo => .ok (analyzePipeline a now path repo)

/-- The comparison under the final sort: the Go code passes
repos[i].LastCommitTime.After(repos[j].LastCommitTime) as the
less-function of sort.Slice, so an element sorts before another
exactly when its timestamp is not earlier, i.e. later-or-equal. -/
def sortLE (a b : RepoStatus) : Prop :=
  b.LastCommitTime ≤ a.LastCommitTime

instance : DecidableRel sortLE :=
  fun a b => inferInstanceAs (Decidable (b.LastCommitTime ≤ a.LastCommitTime))

instance : IsTotal RepoStatus sortLE :=
  ⟨fun a b => Int.le_total b.LastCommitTime a.LastCommitTime⟩

instance : IsTrans RepoStatus sortLE :=
  ⟨fun _ _ _ h1 h2 => le_trans h2 h1⟩

/-- SortByLastActive from analyzer.go: sort.Slice with the After
comparison.  Go uses an unstable pattern-defeating quicksort; any
sort that is correct for the comparison produces the same pairwise
ordering guarantee, and the model uses insertion sort for that
comparison.  No tie-break beyond the comparison exists in the source. -/
def SortByLastActive (repos : List RepoStatus) : List RepoStatus :=
  List.insertionSort sortLE repos

/-- The per-path outcome a worker publishes to the result channel in
Process: a status on success, otherwise a ScanError carrying the path
and the error message. -/
def toOutcome (p : String) : Except String RepoStatus → Except ScanError RepoStatus
  | .error e => .error { Path := p, Message := e }
  | .ok st => .ok st

/-- The receive loop of Process: statuses and errors are appended, in
arrival order, to two lists. -/
def collectResults : List (Except ScanError RepoStatus) → List RepoStatus × List ScanError
  | [] => ([], [])
  | .ok st :: rest =>
    let pr := collectResults rest
    (st :: pr.1, pr.2)
  | .error er :: rest =>
    let pr := collectResults rest
    (pr.1, er :: pr.2)

/-- Process from pool.go.  The job and result channels are buffered
to the number of paths, so with at least one worker every submitted
path is analyzed exactly once and its single outcome reaches the
result channel; the interleaving of the workers only permutes the
arrival order, which the model receives as the completionOrder
argument (a permutation of the submitted paths).  With no workers
(workerCount at most 0, which the scanner never configures) the
result channel closes empty.  The context is passed to every Analyze
call and never consulted for scheduling, exactly as in the source. -/
def Process (pool : Pool) (a : Analyzer) (ctx : Ctx) (now : Int)
    (env : String → Except String Repo) (completionOrder : List String) :
    List RepoStatus × List ScanError :=
  if pool.workerCount ≤ 0 then ([], [])
  else
    let rs := completionOrder.map (fun p => toOutcome p (Analyze a ctx now env p))
    let pr := collectResults rs
    (SortByLastActive pr.1, pr.2)

/-- The success component of a published outcome. -/
def okPart : Except ScanError RepoStatus → Option RepoStatus
  | .ok st => some st
  | .error _ => none

/-- The failure component of a published outcome. -/
def errPart : Except ScanError RepoStatus → Option ScanError
  | .ok _ => none
  | .error e => some e

/-- Length of one day as an Int duration in nanoseconds. -/
def dayDuration : Int := 24 * 60 * 60 * 1000000000

/-- Day index of an instant, modelling the date formatting used in
tallyDailyCommits (two instants format equal exactly when they fall
on the same day). -/
def dayOf (t : Int) : Int :=
  t / dayDuration

/-- tallyDailyCommits from scanner.go: count, over every status, the
recent commits whose date equals today; the resulting map holds at
most the entry for today, and is empty when the count is zero. -/
def tallyDailyCommits (now : Int) (statuses : List RepoStatus) : List (Int × Nat) :=
  let today := dayOf now
  let total := (statuses.map
    (fun st => (st.RecentCommits.filter (fun c => decide (dayOf c.Timestamp = today))).length)).sum
  if total = 0 then [] else [(today, total)]

/-- Scan from scanner.go, after discovery: discovery (filesystem
traversal, out of the specified core) supplies the found repository
paths and the non-git sibling list, and the model also receives the
completion order of the pool and the measured duration.  The result
records the sorted statuses, TotalRepos as the length of the status
list, the error list, and in detail mode the daily tally. -/
def Scan (config : ScanConfig) (ctx : Ctx) (now : Int)
    (env : String → Except String Repo) (completionOrder : List String)
    (nonGitPaths : List String) (duration : Int) : ScanResult :=
  let analyzer : Analyzer := { detailMode := config.DetailMode, ghostThreshold := config.GhostThreshold }
  let pool : Pool := { workerCount := config.WorkerCount }
  let pr := Process pool analyzer ctx now env completionOrder
  { Repos := pr.1, TotalRepos := pr.1.length, NonGitPaths := nonGitPaths,
    DailyCommits := if config.DetailMode then tallyDailyCommits now pr.1 else [],
    ScanDuration := duration, Errors := pr.2 }

/-- The root commit of the linear example history. -/
def exLinRoot : CommitObj :=
  { hash := 1, parents := [], author := "ada", message := "root", timeWhen := 100, addition := 1, deletion := 0 }

/-- The local-only commit of the linear example history. -/
def exLinLocal : CommitObj :=
  { hash := 2, parents := [1], author := "ada", message := "local work", timeWhen := 200, addition := 2, deletion := 1 }

/-- The remote-only commit of the linear example history. -/
def exLinRemote : CommitObj :=
  { hash := 3, parents := [1], author := "bob", message := "remote work", timeWhen := 150, addition := 3, deletion := 0 }

/-- A linear two-branch history: root commit 1, local-only commit 2
on top of it, remote-only commit 3 on top of it.  HEAD is branch main
at 2; the remote-tracking reference points at 3; the worktree is
clean. -/
def exRepoLin : Repo :=
  { objects := [exLinRoot, exLinLocal, exLinRemote],
    headRef := some (HeadRef.branch ("main") 2),
    refs := [(remoteRefName ("main"), 3)],
    porcelain := some [] }

/-- A history with a merge: root 1; commit 2 (the remote-tracking
state) and commit 3 on top of the root; merge commit 4 with parents 3
and 2 as the local head.  The preorder walk from 4 visits 4, 3, 1 and
only then reaches 2, although 1 is reachable from 2. -/
def exRepoMerge : Repo :=
  { objects :=
      [ { hash := 1, parents := [], author := "ada", message := "root", timeWhen := 100, addition := 0, deletion := 0 },
        { hash := 2, parents := [1], author := "bob", message := "remote work", timeWhen := 150, addition := 0, deletion := 0 },
        { hash := 3, parents := [1], author := "ada", message := "side work", timeWhen := 160, addition := 0, deletion := 0 },
        { hash := 4, parents := [3, 2], author := "ada", message := "merge", timeWhen := 170, addition := 0, deletion := 0 } ],
    headRef := some (HeadRef.branch ("main") 4),
    refs := [(remoteRefName ("main"), 2)],
    porcelain := some [] }

/-- A fully synced one-commit repository: HEAD and the
remote-tracking reference both point at commit 1. -/
def exRepoSync : Repo :=
  { objects :=
      [ { hash := 1, parents := [], author := "ada", message := "root", timeWhen := 100, addition := 0, deletion := 0 } ],
    headRef := some (HeadRef.branch ("main") 1),
    refs := [(remoteRefName ("main"), 1)],
    porcelain := some [] }

/-- Unrelated histories: the local branch is the root commit 1, the
remote-tracking reference is the root commit 2, and the two share no
ancestor. -/
def exRepoUnrelated : Repo :=
  { objects :=
      [ { hash := 1, parents := [], author := "ada", message := "local root", timeWhen := 100, addition := 0, deletion := 0 },
        { hash := 2, parents := [], author := "bob", message := "remote root", timeWhen := 90, addition := 0, deletion := 0 } ],
    headRef := some (HeadRef.branch ("main") 1),
    refs := [(remoteRefName ("main"), 2)],
    porcelain := some [] }

/-- A six-commit linear history for the recent-history bound: HEAD is
branch main at commit 16, parents descend to commit 11.  The worktree
probe reports one changed file. -/
def exRepoLong : Repo :=
  { objects :=
      [ { hash := 16, parents := [15], author := "ada", message := "f6", timeWhen := 600, addition := 1, deletion := 1 },
        { hash := 15, parents := [14], author := "ada", message := "f5", timeWhen := 500, addition := 0, deletion := 0 },
        { hash := 14, parents := [13], author := "ada", message := "f4", timeWhen := 400, addition := 0, deletion := 0 },
        { hash := 13, parents := [12], author := "ada", message := "f3", timeWhen := 300, addition := 0, deletion := 0 },
        { hash := 12, parents := [11], author := "ada", message := "f2", timeWhen := 200, addition := 0, deletion := 0 },
        { hash := 11, parents := [], author := "ada", message := "f1", timeWhen := 100, addition := 0, deletion := 0 } ],
    headRef := some (HeadRef.branch ("main") 16),
    refs := [],
    porcelain := some ([Char.ofNat 77, Char.ofNat 32, Char.ofNat 102, nl]) }

/-- Analyzer configurations used by the concrete runs below. -/
def exAnalyzer : Analyzer := { detailMode := false, ghostThreshold := 50 }

/-- Detail-mode analyzer configuration. -/
def exAnalyzerDetail : Analyzer := { detailMode := true, ghostThreshold := 50 }

/-- Paths of the concrete runs. -/
def pathLin : String := "/src/lin"

/-- Path of the merge-history repository. -/
def pathMerge : String := "/src/merge"

/-- Path of the synced repository. -/
def pathSync : String := "/src/sync"

/-- Path that fails to open in the concrete environment. -/
def pathGone : String := "/src/gone"

/-- A concrete environment: two repositories open, one path fails. -/
def exEnv : String → Except String Repo := fun p =>
  if p = pathLin then .ok exRepoLin
  else if p = pathSync then .ok exRepoSync
  else .error ("repository does not exist")

/-- Every commit of the store has at most one parent: the reachable
history of every hash is a chain. -/
def LinearRepo (repo : Repo) : Prop :=
  ∀ c ∈ repo.objects, c.parents.length ≤ 1

/-- A rank function certifying the commit graph acyclic: every parent
edge strictly decreases the rank. -/
def RankedBy (repo : Repo) (rank : Nat → Nat) : Prop :=
  ∀ c ∈ repo.objects, ∀ p ∈ c.parents, rank p < rank c.hash

/-- Every parent hash of a stored commit resolves in the store. -/
def ClosedRepo (repo : Repo) : Prop :=
  ∀ c ∈ repo.objects, ∀ p ∈ c.parents, ∃ d ∈ repo.objects, d.hash = p

/-- A repository whose worktree probe fails: the external git status
command returns an error, so the dirty fields keep their zero values. -/
def exRepoNoProbe : Repo :=
  { objects :=
      [ { hash := 1, parents := [], author := "ada", message := "root", timeWhen := 100, addition := 0, deletion := 0 } ],
    headRef := some (HeadRef.branch ("main") 1),
    refs := [],
    porcelain := none }

/-- Path of the probe-failure repository. -/
def pathNoProbe : String := "/src/noprobe"

/-- Path of the long repository. -/
def pathLong : String := "/src/long"

/-- Path of the unrelated-histories repository. -/
def pathUnrel : String := "/src/unrel"

/-- A second concrete environment carrying every example repository. -/
def exEnvAll : String → Except String Repo := fun p =>
  if p = pathLin then .ok exRepoLin
  else if p = pathSync then .ok exRepoSync
  else if p = pathMerge then .ok exRepoMerge
  else if p = pathLong then .ok exRepoLong
  else if p = pathNoProbe then .ok exRepoNoProbe
  else if p = pathUnrel then .ok exRepoUnrelated
  else .error ("repository does not exist")

/-- A concrete scan configuration used by the scanner witness. -/
def exConfig : ScanConfig :=
  { RootPath := "/src", MaxDepth := 3, DetailMode := false, GhostThreshold := 50, WorkerCount := 4 }

/-- A status with last activity at instant 100. -/
def exStatusOld : RepoStatus :=
  { newRepoStatus ("old") ("/src/old") with LastCommitTime := 100 }

/-- A status with last activity at instant 200. -/
def exStatusNew : RepoStatus :=
  { newRepoStatus ("new") ("/src/new") with LastCommitTime := 200 }

/-- A successful object lookup returns a stored commit with the
looked-up hash. -/
theorem find?_mem_hash (repo : Repo) (h : Nat) (c : CommitObj)
    (hf : repo.find? h = some c) : c ∈ repo.objects ∧ c.hash = h := by
  unfold Repo.find? at hf
  refine ⟨List.mem_of_find?_eq_some hf, ?_⟩
  have hp := List.find?_some hf
  simpa using hp

/-- Marking one more hash as seen never increases the pending weight. -/
theorem sumPend_mono (l : List CommitObj) (h : Nat) (seen : List Nat) :
    sumPend l (h :: seen) ≤ sumPend l seen := by
  induction l with
  | nil => simp [sumPend]
  | cons d t ih =>
    simp only [sumPend]
    by_cases hd : d.hash ∈ seen
    · rw [if_pos hd, if_pos (List.mem_cons_of_mem h hd)]
      omega
    · rw [if_neg hd]
      by_cases hdh : d.hash ∈ h :: seen
      · rw [if_pos hdh]; omega
      · rw [if_neg hdh]; omega

/-- Marking a stored unseen hash as seen removes at least its own
weight from the pending weight. -/
theorem sumPend_lt (l : List CommitObj) (c : CommitObj) (h : Nat) (seen : List Nat)
    (hc : c ∈ l) (hh : c.hash = h) (hs : h ∉ seen) :
    sumPend l (h :: seen) + c.parents.length + 1 ≤ sumPend l seen := by
  induction l with
  | nil => cases hc
  | cons d t ih =>
    rcases List.mem_cons.mp hc with rfl | hct
    · simp only [sumPend]
      rw [if_pos (by rw [hh]; exact List.mem_cons_self h seen), if_neg (by rw [hh]; exact hs)]
      have := sumPend_mono t h seen
      omega
    · have hrec := ih hct
      simp only [sumPend]
      by_cases hd : d.hash ∈ seen
      · rw [if_pos hd, if_pos (List.mem_cons_of_mem h hd)]
        omega
      · rw [if_neg hd]
        by_cases hdh : d.hash ∈ h :: seen
        · rw [if_pos hdh]; omega
        · rw [if_neg hdh]; omega

/-- The walker output does not depend on the fuel, once the fuel
exceeds the pending weight plus the stack size. -/
theorem walkF_congr (repo : Repo) : ∀ n m stack seen,
    pending repo seen + stack.length < n → pending repo seen + stack.length < m →
    walkF repo n stack seen = walkF repo m stack seen := by
  intro n
  induction n with
  | zero => intro m stack seen h1 _; omega
  | succ n ih =>
    intro m stack seen h1 h2
    cases m with
    | zero => omega
    | succ m =>
      cases stack with
      | nil => rfl
      | cons h rest =>
        simp only [walkF]
        by_cases hs : h ∈ seen
        · rw [if_pos hs, if_pos hs]
          exact ih m rest seen (by simp at h1 ⊢; omega) (by simp at h2 ⊢; omega)
        · rw [if_neg hs, if_neg hs]
          cases hf : repo.find? h with
          | none => rfl
          | some c =>
            obtain ⟨hcm, hch⟩ := find?_mem_hash repo h c hf
            have hkey : pending repo (h :: seen) + c.parents.length + 1 ≤ pending repo seen :=
              sumPend_lt repo.objects c h seen hcm hch hs
            simp only [List.length_cons] at h1 h2
            have hb1 : pending repo (h :: seen) + (c.parents ++ rest).length < n := by
              simp only [List.length_append]; omega
            have hb2 : pending repo (h :: seen) + (c.parents ++ rest).length < m := by
              simp only [List.length_append]; omega
            dsimp only
            rw [ih m (c.parents ++ rest) (h :: seen) hb1 hb2]

/-- One unfolding step of the fuelled walker on a non-empty stack. -/
theorem walkF_succ (repo : Repo) (fuel : Nat) (h : Nat) (rest seen : List Nat) :
    walkF repo (fuel + 1) (h :: rest) seen =
      if h ∈ seen then walkF repo fuel rest seen
      else
        match repo.find? h with
        | none => []
        | some c => c :: walkF repo fuel (c.parents ++ rest) (h :: seen) := rfl

/-- The walker on the empty stack yields nothing. -/
theorem walk_nil (repo : Repo) (seen : List Nat) : walk repo [] seen = [] := rfl

/-- Popping an already seen hash skips it. -/
theorem walk_cons_seen (repo : Repo) (h : Nat) (st seen : List Nat)
    (hs : h ∈ seen) : walk repo (h :: st) seen = walk repo st seen := by
  unfold walk
  rw [walkF_succ, if_pos hs]
  exact walkF_congr repo (pending repo seen + (h :: st).length) (pending repo seen + st.length + 1)
    st seen (by simp only [List.length_cons]; omega) (by omega)

/-- Popping an unseen hash with no stored object stops the iteration. -/
theorem walk_cons_missing (repo : Repo) (h : Nat) (st seen : List Nat)
    (hs : h ∉ seen) (hf : repo.find? h = none) : walk repo (h :: st) seen = [] := by
  unfold walk
  rw [walkF_succ, if_neg hs, hf]

/-- Popping an unseen stored hash yields its commit and pushes its
parents on top of the stack, with the hash now seen. -/
theorem walk_cons_found (repo : Repo) (h : Nat) (st seen : List Nat) (c : CommitObj)
    (hs : h ∉ seen) (hf : repo.find? h = some c) :
    walk repo (h :: st) seen = c :: walk repo (c.parents ++ st) (h :: seen) := by
  unfold walk
  rw [walkF_succ, if_neg hs, hf]
  obtain ⟨hcm, hch⟩ := find?_mem_hash repo h c hf
  have hkey : pending repo (h :: seen) + c.parents.length + 1 ≤ pending repo seen :=
    sumPend_lt repo.objects c h seen hcm hch hs
  dsimp only
  congr 1
  exact walkF_congr repo (pending repo seen + (h :: st).length)
    (pending repo (h :: seen) + (c.parents ++ st).length + 1) (c.parents ++ st) (h :: seen)
    (by simp only [List.length_append, List.length_cons]; omega)
    (by simp only [List.length_append, List.length_cons]; omega)

/-- A hash with no stored object reaches nothing in the walker. -/
theorem reachHashes_missing (repo : Repo) (h : Nat) (hf : repo.find? h = none) :
    reachHashes repo h = [] := by
  unfold reachHashes reachList logFromHash
  rw [walk_cons_missing repo h [] [] (List.not_mem_nil h) hf]
  rfl

/-- In a linear store, a commit has no parent or exactly one. -/
theorem parents_cases (repo : Repo) (c : CommitObj) (hlin : LinearRepo repo)
    (hc : c ∈ repo.objects) : c.parents = [] ∨ ∃ p, c.parents = [p] := by
  have hlen := hlin c hc
  rcases hpl : c.parents with _ | ⟨p, _ | ⟨q, t⟩⟩
  · exact Or.inl rfl
  · exact Or.inr ⟨p, rfl⟩
  · exfalso
    rw [hpl] at hlen
    simp at hlen

/-- Seen hashes of strictly larger rank do not alter a singleton
walk: on a ranked linear store, the walk from one hash never revisits
and so never consults the seen set. -/
theorem walk_single_eq (repo : Repo) (rank : Nat → Nat) (hlin : LinearRepo repo)
    (hrank : RankedBy repo rank) :
    ∀ n h seen, rank h < n → (∀ s ∈ seen, rank h < rank s) →
      walk repo [h] seen = walk repo [h] [] := by
  intro n
  induction n with
  | zero => intro h seen hn _; omega
  | succ n ih =>
    intro h seen hn hseen
    have hns : h ∉ seen := fun hmem => lt_irrefl (rank h) (hseen h hmem)
    cases hf : repo.find? h with
    | none =>
      rw [walk_cons_missing repo h [] seen hns hf,
          walk_cons_missing repo h [] [] (List.not_mem_nil h) hf]
    | some c =>
      obtain ⟨hcm, hch⟩ := find?_mem_hash repo h c hf
      rw [walk_cons_found repo h [] seen c hns hf,
          walk_cons_found repo h [] [] c (List.not_mem_nil h) hf]
      rcases parents_cases repo c hlin hcm with hp0 | ⟨p, hp1⟩
      · rw [hp0]
        simp [walk_nil]
      · rw [hp1]
        have hpr : rank p < rank h := by
          have := hrank c hcm p (by rw [hp1]; exact List.mem_cons_self p [])
          rwa [hch] at this
        simp only [List.cons_append, List.nil_append]
        congr 1
        have e1 : walk repo [p] (h :: seen) = walk repo [p] [] := by
          refine ih p (h :: seen) (by omega) ?_
          intro s hsm
          rcases List.mem_cons.mp hsm with rfl | hsm2
          · exact hpr
          · exact lt_trans hpr (hseen s hsm2)
        have e2 : walk repo [p] [h] = walk repo [p] [] := by
          refine ih p [h] (by omega) ?_
          intro s hsm
          have hsh : s = h := by simpa using hsm
          rw [hsh]
          exact hpr
        rw [e1, e2]

/-- A parentless stored commit reaches only itself. -/
theorem reachList_noparent (repo : Repo) (c : CommitObj) (h : Nat)
    (hf : repo.find? h = some c) (hp : c.parents = []) :
    reachList repo h = [c] := by
  unfold reachList logFromHash
  rw [walk_cons_found repo h [] [] c (List.not_mem_nil h) hf, hp]
  simp [walk_nil]

/-- On a ranked linear store, the reach list of a stored commit with
one parent is the commit followed by the reach list of the parent. -/
theorem reachList_parent (repo : Repo) (rank : Nat → Nat) (hlin : LinearRepo repo)
    (hrank : RankedBy repo rank) (h p : Nat) (c : CommitObj)
    (hf : repo.find? h = some c) (hp : c.parents = [p]) :
    reachList repo h = c :: reachList repo p := by
  obtain ⟨hcm, hch⟩ := find?_mem_hash repo h c hf
  have hpr : rank p < rank h := by
    have := hrank c hcm p (by rw [hp]; exact List.mem_cons_self p [])
    rwa [hch] at this
  unfold reachList logFromHash
  rw [walk_cons_found repo h [] [] c (List.not_mem_nil h) hf, hp]
  simp only [List.cons_append, List.nil_append]
  congr 1
  refine walk_single_eq repo rank hlin hrank (rank p + 1) p [h] (by omega) ?_
  intro s hsm
  have hsh : s = h := by simpa using hsm
  rw [hsh]
  exact hpr

/-- On a ranked linear store, everything reachable from a hash is the
hash itself or has strictly smaller rank. -/
theorem reach_rank_bound (repo : Repo) (rank : Nat → Nat) (hlin : LinearRepo repo)
    (hrank : RankedBy repo rank) :
    ∀ n h, rank h < n → ∀ x ∈ reachHashes repo h, x = h ∨ rank x < rank h := by
  intro n
  induction n with
  | zero => intro h hn; omega
  | succ n ih =>
    intro h hn x hx
    cases hf : repo.find? h with
    | none =>
      rw [reachHashes_missing repo h hf] at hx
      cases hx
    | some c =>
      obtain ⟨hcm, hch⟩ := find?_mem_hash repo h c hf
      rcases parents_cases repo c hlin hcm with hp0 | ⟨p, hp1⟩
      · rw [show reachHashes repo h = [h] from by
          unfold reachHashes
          rw [reachList_noparent repo c h hf hp0]
          simp [hch]] at hx
        exact Or.inl (by simpa using hx)
      · have hpr : rank p < rank h := by
          have := hrank c hcm p (by rw [hp1]; exact List.mem_cons_self p [])
          rwa [hch] at this
        rw [show reachHashes repo h = h :: reachHashes repo p from by
          unfold reachHashes
          rw [reachList_parent repo rank hlin hrank h p c hf hp1]
          simp [hch]] at hx
        rcases List.mem_cons.mp hx with rfl | hx2
        · exact Or.inl rfl
        · rcases ih p (by omega) x hx2 with rfl | hlt
          · exact Or.inr hpr
          · exact Or.inr (lt_trans hlt hpr)

/-- Filtering a list by non-membership in a superset of itself yields
nothing. -/
theorem filter_not_mem_self (l L : List Nat) (hsub : ∀ x ∈ l, x ∈ L) :
    l.filter (fun x => decide (¬ x ∈ L)) = [] := by
  induction l with
  | nil => rfl
  | cons a t ih =>
    have ha : a ∈ L := hsub a (List.mem_cons_self a t)
    simp only [List.filter_cons]
    rw [if_neg (by simp [ha])]
    exact ih (fun x hx => hsub x (List.mem_cons_of_mem a hx))

/-- On a ranked linear store, walking from a hash and stopping at the
first occurrence of a reachable hash b yields exactly the hashes
reachable from the start but not reachable from b. -/
theorem takeWhile_reach_eq_filter (repo : Repo) (rank : Nat → Nat) (hlin : LinearRepo repo)
    (hrank : RankedBy repo rank) (b : Nat) :
    ∀ n h, rank h < n → b ∈ reachHashes repo h →
      (reachHashes repo h).takeWhile (fun x => decide (¬ x = b)) =
      (reachHashes repo h).filter (fun x => decide (¬ x ∈ reachHashes repo b)) := by
  intro n
  induction n with
  | zero => intro h hn; omega
  | succ n ih =>
    intro h hn hb
    cases hf : repo.find? h with
    | none =>
      rw [reachHashes_missing repo h hf] at hb
      cases hb
    | some c =>
      obtain ⟨hcm, hch⟩ := find?_mem_hash repo h c hf
      rcases parents_cases repo c hlin hcm with hp0 | ⟨p, hp1⟩
      · have hr : reachHashes repo h = [h] := by
          unfold reachHashes
          rw [reachList_noparent repo c h hf hp0]
          simp [hch]
        rw [hr] at hb
        have hbh : b = h := by simpa using hb
        subst hbh
        rw [hr]
        have h1 : ([b] : List Nat).takeWhile (fun x => decide (¬ x = b)) = [] := by
          simp [List.takeWhile_cons]
        rw [h1]
        exact (filter_not_mem_self [b] [b] (fun x hx => hx)).symm
      · have hpr : rank p < rank h := by
          have := hrank c hcm p (by rw [hp1]; exact List.mem_cons_self p [])
          rwa [hch] at this
        have hr : reachHashes repo h = h :: reachHashes repo p := by
          unfold reachHashes
          rw [reachList_parent repo rank hlin hrank h p c hf hp1]
          simp [hch]
        by_cases hbh : b = h
        · subst hbh
          rw [hr]
          have h1 : (b :: reachHashes repo p).takeWhile (fun x => decide (¬ x = b)) = [] := by
            simp [List.takeWhile_cons]
          rw [h1]
          exact (filter_not_mem_self _ _ (fun x hx => hx)).symm
        · have hbp : b ∈ reachHashes repo p := by
            rw [hr] at hb
            rcases List.mem_cons.mp hb with h1 | h2
            · exact absurd h1 hbh
            · exact h2
          have hrankb : rank b < rank h := by
            rcases reach_rank_bound repo rank hlin hrank (rank h + 1) h (by omega) b hb with h1 | h2
            · exact absurd h1 hbh
            · exact h2
          have hnm : h ∉ reachHashes repo b := by
            intro hmem
            rcases reach_rank_bound repo rank hlin hrank (rank b + 1) b (by omega) h hmem with h1 | h2
            · exact hbh h1.symm
            · omega
          rw [hr]
          have ht : (decide (¬ h = b)) = true := decide_eq_true (fun e => hbh e.symm)
          have hfl : (decide (¬ h ∈ reachHashes repo b)) = true := decide_eq_true hnm
          rw [List.takeWhile_cons, ht, List.filter_cons, hfl]
          simp only [if_true]
          rw [ih p (by omega) hbp]

/-- On a ranked linear store, countCommitsBetween from a reachable
merge base b up to a head equals the number of hashes reachable from
the head but not from b. -/
theorem countCommitsBetween_eq_diff (repo : Repo) (rank : Nat → Nat)
    (hlin : LinearRepo repo) (hrank : RankedBy repo rank) (b toH : Nat)
    (hb : b ∈ reachHashes repo toH) :
    countCommitsBetween repo b toH =
      ((reachHashes repo toH).filter (fun x => decide (¬ x ∈ reachHashes repo b))).length := by
  unfold countCommitsBetween
  by_cases hbt : b = toH
  · rw [if_pos hbt]
    subst hbt
    rw [filter_not_mem_self _ _ (fun x hx => hx)]
    rfl
  · rw [if_neg hbt]
    have heq := takeWhile_reach_eq_filter repo rank hlin hrank b (rank toH + 1) toH (by omega) hb
    show ((reachHashes repo toH).takeWhile (fun x => decide (¬ x = b))).length = _
    rw [heq]

/-- A hash that some stored commit carries resolves in the store. -/
theorem find?_of_exists (repo : Repo) (p : Nat)
    (hex : ∃ d ∈ repo.objects, d.hash = p) : ∃ cp, repo.find? p = some cp := by
  obtain ⟨d, hd, hdp⟩ := hex
  unfold Repo.find?
  have hsome : (List.find? (fun c => c.hash == p) repo.objects).isSome := by
    rw [List.find?_isSome]
    exact ⟨d, hd, by simp [hdp]⟩
  exact Option.isSome_iff_exists.mp hsome

/-- Walker membership implies reachability: every hash the walker
visits from h is reachable from h along parent pointers. -/
theorem reach_mem_reaches (repo : Repo) (rank : Nat → Nat) (hlin : LinearRepo repo)
    (hrank : RankedBy repo rank) :
    ∀ n h, rank h < n → ∀ x, x ∈ reachHashes repo h → Reaches repo h x := by
  intro n
  induction n with
  | zero => intro h hn; omega
  | succ n ih =>
    intro h hn x hx
    cases hf : repo.find? h with
    | none =>
      rw [reachHashes_missing repo h hf] at hx
      cases hx
    | some c =>
      obtain ⟨hcm, hch⟩ := find?_mem_hash repo h c hf
      rcases parents_cases repo c hlin hcm with hp0 | ⟨p, hp1⟩
      · rw [show reachHashes repo h = [h] from by
          unfold reachHashes
          rw [reachList_noparent repo c h hf hp0]
          simp [hch]] at hx
        have hxh : x = h := by simpa using hx
        rw [hxh]
        exact Reaches.refl h
      · have hpr : rank p < rank h := by
          have := hrank c hcm p (by rw [hp1]; exact List.mem_cons_self p [])
          rwa [hch] at this
        rw [show reachHashes repo h = h :: reachHashes repo p from by
          unfold reachHashes
          rw [reachList_parent repo rank hlin hrank h p c hf hp1]
          simp [hch]] at hx
        rcases List.mem_cons.mp hx with rfl | hx2
        · exact Reaches.refl x
        · exact Reaches.step h p x c hcm hch (by rw [hp1]; exact List.mem_cons_self p [])
            (ih p (by omega) x hx2)

/-- Reachability implies walker membership, on a ranked linear closed
store with unique hashes, provided the start resolves. -/
theorem reaches_mem_reach (repo : Repo) (rank : Nat → Nat) (hlin : LinearRepo repo)
    (hrank : RankedBy repo rank) (hclosed : ClosedRepo repo)
    (hnodup : (repo.objects.map (fun c => c.hash)).Nodup) :
    ∀ h x, Reaches repo h x → (∃ c, repo.find? h = some c) → x ∈ reachHashes repo h := by
  intro h x hr
  induction hr with
  | refl h2 =>
    intro hex
    obtain ⟨c, hf⟩ := hex
    obtain ⟨hcm, hch⟩ := find?_mem_hash repo h2 c hf
    rcases parents_cases repo c hlin hcm with hp0 | ⟨p, hp1⟩
    · rw [show reachHashes repo h2 = [h2] from by
        unfold reachHashes
        rw [reachList_noparent repo c h2 hf hp0]
        simp [hch]]
      exact List.mem_cons_self h2 []
    · rw [show reachHashes repo h2 = h2 :: reachHashes repo p from by
        unfold reachHashes
        rw [reachList_parent repo rank hlin hrank h2 p c hf hp1]
        simp [hch]]
      exact List.mem_cons_self h2 (reachHashes repo p)
  | step h2 p k c2 hc2 hh2 hp2 htail ih =>
    intro hex
    obtain ⟨c, hf⟩ := hex
    obtain ⟨hcm, hch⟩ := find?_mem_hash repo h2 c hf
    have hcc : c = c2 := by
      have hinj := List.inj_on_of_nodup_map hnodup
      exact hinj hcm hc2 (by rw [hch, hh2])
    have hpc : p ∈ c.parents := by rw [hcc]; exact hp2
    have hp1 : c.parents = [p] := by
      rcases parents_cases repo c hlin hcm with hp0 | ⟨q, hq⟩
      · rw [hp0] at hpc; cases hpc
      · rw [hq] at hpc
        have : p = q := by simpa using hpc
        rw [hq, this]
    have hpres : ∃ cp, repo.find? p = some cp :=
      find?_of_exists repo p (hclosed c hcm p hpc)
    rw [show reachHashes repo h2 = h2 :: reachHashes repo p from by
      unfold reachHashes
      rw [reachList_parent repo rank hlin hrank h2 p c hf hp1]
      simp [hch]]
    exact List.mem_cons_of_mem h2 (ih hpres)

/-- analyzeBranch writes only the Branch field. -/
theorem analyzeBranch_pres (repo : Repo) (st : RepoStatus) :
    (analyzeBranch repo st).IsClean = st.IsClean ∧
    (analyzeBranch repo st).ChangedFiles = st.ChangedFiles ∧
    (analyzeBranch repo st).LastCommitTime = st.LastCommitTime ∧
    (analyzeBranch repo st).UnpushedCommits = st.UnpushedCommits ∧
    (analyzeBranch repo st).UnpulledCommits = st.UnpulledCommits ∧
    (analyzeBranch repo st).RecentCommits = st.RecentCommits := by
  unfold analyzeBranch
  rcases repo.headRef with _ | r
  · simp
  · cases r <;> simp

/-- analyzeWorktree writes only IsClean and ChangedFiles. -/
theorem analyzeWorktree_pres (repo : Repo) (st : RepoStatus) :
    (analyzeWorktree repo st).LastCommitTime = st.LastCommitTime ∧
    (analyzeWorktree repo st).UnpushedCommits = st.UnpushedCommits ∧
    (analyzeWorktree repo st).UnpulledCommits = st.UnpulledCommits ∧
    (analyzeWorktree repo st).RecentCommits = st.RecentCommits := by
  unfold analyzeWorktree
  rcases repo.porcelain with _ | out <;> simp

/-- analyzeLastCommit writes only LastCommitTime. -/
theorem analyzeLastCommit_pres (repo : Repo) (st : RepoStatus) :
    (analyzeLastCommit repo st).IsClean = st.IsClean ∧
    (analyzeLastCommit repo st).ChangedFiles = st.ChangedFiles ∧
    (analyzeLastCommit repo st).UnpushedCommits = st.UnpushedCommits ∧
    (analyzeLastCommit repo st).UnpulledCommits = st.UnpulledCommits ∧
    (analyzeLastCommit repo st).RecentCommits = st.RecentCommits := by
  unfold analyzeLastCommit
  cases hr : repo.headRef with
  | none => simp
  | some r =>
    cases hh : (logFromHash repo r.hash).head? with
    | none => simp [hh]
    | some c => simp [hh]

/-- analyzeRemoteStatus writes only the unpushed and unpulled counts. -/
theorem analyzeRemoteStatus_pres (repo : Repo) (st : RepoStatus) :
    (analyzeRemoteStatus repo st).IsClean = st.IsClean ∧
    (analyzeRemoteStatus repo st).ChangedFiles = st.ChangedFiles ∧
    (analyzeRemoteStatus repo st).LastCommitTime = st.LastCommitTime ∧
    (analyzeRemoteStatus repo st).RecentCommits = st.RecentCommits := by
  unfold analyzeRemoteStatus
  cases hr : repo.headRef with
  | none => simp
  | some r =>
    cases r with
    | detached h => simp
    | branch name lh =>
      cases hlook : List.lookup (remoteRefName name) repo.refs with
      | none => simp [hlook]
      | some rh =>
        by_cases he : lh = rh
        · simp [hlook, he]
        · cases hfl : repo.find? lh with
          | none => simp [hlook, he, hfl]
          | some lc =>
            cases hfr : repo.find? rh with
            | none => simp [hlook, he, hfl, hfr]
            | some rc =>
              cases hm : mergeBase repo lc rc with
              | nil => simp [hlook, he, hfl, hfr, hm]
              | cons base rest => simp [hlook, he, hfl, hfr, hm]

/-- analyzeRecentCommits writes only the RecentCommits field. -/
theorem analyzeRecentCommits_pres (repo : Repo) (st : RepoStatus) :
    (analyzeRecentCommits repo st).IsClean = st.IsClean ∧
    (analyzeRecentCommits repo st).ChangedFiles = st.ChangedFiles ∧
    (analyzeRecentCommits repo st).LastCommitTime = st.LastCommitTime ∧
    (analyzeRecentCommits repo st).UnpushedCommits = st.UnpushedCommits ∧
    (analyzeRecentCommits repo st).UnpulledCommits = st.UnpulledCommits := by
  unfold analyzeRecentCommits
  rcases repo.headRef with _ | r <;> simp

/-- analyzeLinesChanged writes only the LinesChanged field. -/
theorem analyzeLinesChanged_pres (now : Int) (repo : Repo) (st : RepoStatus) :
    (analyzeLinesChanged now repo st).IsClean = st.IsClean ∧
    (analyzeLinesChanged now repo st).ChangedFiles = st.ChangedFiles ∧
    (analyzeLinesChanged now repo st).LastCommitTime = st.LastCommitTime ∧
    (analyzeLinesChanged now repo st).UnpushedCommits = st.UnpushedCommits ∧
    (analyzeLinesChanged now repo st).UnpulledCommits = st.UnpulledCommits ∧
    (analyzeLinesChanged now repo st).RecentCommits = st.RecentCommits := by
  unfold analyzeLinesChanged
  rcases repo.headRef with _ | r
  · simp
  · dsimp only
    split <;> simp

/-- Projections of the finished status: only IsGhost differs from
the phase-chain result, and it records the strict threshold test on
the final last-commit timestamp. -/
theorem analyzePipeline_proj (a : Analyzer) (now : Int) (path : String) (repo : Repo) :
    (analyzePipeline a now path repo).IsClean = (pipelineCore a now path repo).IsClean ∧
    (analyzePipeline a now path repo).ChangedFiles = (pipelineCore a now path repo).ChangedFiles ∧
    (analyzePipeline a now path repo).LastCommitTime = (pipelineCore a now path repo).LastCommitTime ∧
    (analyzePipeline a now path repo).UnpushedCommits = (pipelineCore a now path repo).UnpushedCommits ∧
    (analyzePipeline a now path repo).UnpulledCommits = (pipelineCore a now path repo).UnpulledCommits ∧
    (analyzePipeline a now path repo).RecentCommits = (pipelineCore a now path repo).RecentCommits ∧
    (analyzePipeline a now path repo).IsGhost
      = decide (now - (pipelineCore a now path repo).LastCommitTime > a.ghostThreshold) := by
  unfold analyzePipeline
  simp

/-- The detail phases preserve the fields of the unconditional chain. -/
theorem pipelineCore_pres (a : Analyzer) (now : Int) (path : String) (repo : Repo) :
    (pipelineCore a now path repo).IsClean = (remotePhase path repo).IsClean ∧
    (pipelineCore a now path repo).ChangedFiles = (remotePhase path repo).ChangedFiles ∧
    (pipelineCore a now path repo).LastCommitTime = (remotePhase path repo).LastCommitTime ∧
    (pipelineCore a now path repo).UnpushedCommits = (remotePhase path repo).UnpushedCommits ∧
    (pipelineCore a now path repo).UnpulledCommits = (remotePhase path repo).UnpulledCommits := by
  unfold pipelineCore
  by_cases hd : a.detailMode
  · rw [if_pos hd]
    have h1 := analyzeRecentCommits_pres repo (remotePhase path repo)
    have h2 := analyzeLinesChanged_pres now repo (analyzeRecentCommits repo (remotePhase path repo))
    exact ⟨h2.1.trans h1.1, h2.2.1.trans h1.2.1, h2.2.2.1.trans h1.2.2.1,
      h2.2.2.2.1.trans h1.2.2.2.1, h2.2.2.2.2.1.trans h1.2.2.2.2⟩
  · rw [if_neg hd]
    exact ⟨rfl, rfl, rfl, rfl, rfl⟩

/-- Branch, worktree and last-commit leave the counts and the recent
list at the values of the initial status. -/
theorem chain3_counts (repo : Repo) (st : RepoStatus)
    (h0up : st.UnpushedCommits = 0) (h0dn : st.UnpulledCommits = 0)
    (h0rc : st.RecentCommits = []) :
    (analyzeLastCommit repo (analyzeWorktree repo (analyzeBranch repo st))).UnpushedCommits = 0 ∧
    (analyzeLastCommit repo (analyzeWorktree repo (analyzeBranch repo st))).UnpulledCommits = 0 ∧
    (analyzeLastCommit repo (analyzeWorktree repo (analyzeBranch repo st))).RecentCommits = [] := by
  have h1 := analyzeBranch_pres repo st
  have h2 := analyzeWorktree_pres repo (analyzeBranch repo st)
  have h3 := analyzeLastCommit_pres repo (analyzeWorktree repo (analyzeBranch repo st))
  exact ⟨h3.2.2.1.trans (h2.2.1.trans (h1.2.2.2.1.trans h0up)),
    h3.2.2.2.1.trans (h2.2.2.1.trans (h1.2.2.2.2.1.trans h0dn)),
    h3.2.2.2.2.trans (h2.2.2.2.trans (h1.2.2.2.2.2.trans h0rc))⟩

/-- When the local and the remote-tracking hash agree, the remote
phase returns its input status unchanged. -/
theorem analyzeRemoteStatus_synced (repo : Repo) (st : RepoStatus) (name : String) (lh : Nat)
    (hhead : repo.headRef = some (HeadRef.branch name lh))
    (href : List.lookup (remoteRefName name) repo.refs = some lh) :
    analyzeRemoteStatus repo st = st := by
  unfold analyzeRemoteStatus
  simp [hhead, href]

/-- Disjoint ancestor sets leave no common ancestor: the modelled
MergeBase is empty. -/
theorem mergeBase_empty_of_disjoint (repo : Repo) (lc rc : CommitObj)
    (hdisj : ∀ x, x ∈ reachHashes repo lc.hash → x ∉ reachHashes repo rc.hash) :
    mergeBase repo lc rc = [] := by
  unfold mergeBase
  have hc : (reachList repo lc.hash).filter
      (fun c => decide (c.hash ∈ reachHashes repo rc.hash)) = [] := by
    rw [List.filter_eq_nil_iff]
    intro c hcm
    have hmem : c.hash ∈ reachHashes repo lc.hash := List.mem_map_of_mem (fun d => d.hash) hcm
    simp [hdisj c.hash hmem]
  simp [hc]

/-- A successful Analyze on an opening environment returns exactly
the pipeline result. -/
theorem analyze_ok_eq (a : Analyzer) (ctx : Ctx) (now : Int)
    (env : String → Except String Repo) (path : String) (repo : Repo) (st : RepoStatus)
    (henv : env path = Except.ok repo)
    (hok : Analyze a ctx now env path = Except.ok st) :
    st = analyzePipeline a now path repo := by
  unfold Analyze at hok
  rw [henv] at hok
  exact (Except.ok.inj hok).symm

/-- A status produced by Analyze carries the counts of the remote
phase: the later phases never write them. -/
theorem analyze_counts_eq (a : Analyzer) (ctx : Ctx) (now : Int)
    (env : String → Except String Repo) (path : String) (repo : Repo) (st : RepoStatus)
    (henv : env path = Except.ok repo)
    (hok : Analyze a ctx now env path = Except.ok st) :
    st.UnpushedCommits = (remotePhase path repo).UnpushedCommits ∧
    st.UnpulledCommits = (remotePhase path repo).UnpulledCommits := by
  rw [analyze_ok_eq a ctx now env path repo st henv hok]
  have hp := analyzePipeline_proj a now path repo
  have hc := pipelineCore_pres a now path repo
  exact ⟨hp.2.2.2.1.trans hc.2.2.2.1, hp.2.2.2.2.1.trans hc.2.2.2.2⟩

/-- When the remote phase is the identity on statuses, the phase
chain ends with zero counts. -/
theorem remotePhase_counts_zero (path : String) (repo : Repo)
    (hid : ∀ st, analyzeRemoteStatus repo st = st) :
    (remotePhase path repo).UnpushedCommits = 0 ∧ (remotePhase path repo).UnpulledCommits = 0 := by
  unfold remotePhase
  rw [hid]
  have hch := chain3_counts repo (newRepoStatus (baseName path) path) rfl rfl rfl
  exact ⟨hch.1, hch.2.1⟩

/-- C3: for every analyzed repository, IsGhost is true exactly when
the elapsed time between the current instant and the final
last-activity timestamp strictly exceeds the configured ghost
threshold; an elapsed time equal to the threshold yields false. -/
theorem analyze_isGhost_iff (a : Analyzer) (ctx : Ctx) (now : Int)
    (env : String → Except String Repo) (path : String) (st : RepoStatus)
    (hok : Analyze a ctx now env path = Except.ok st) :
    (st.IsGhost = true ↔ now - st.LastCommitTime > a.ghostThreshold) ∧
    (now - st.LastCommitTime = a.ghostThreshold → st.IsGhost = false) := by
  unfold Analyze at hok
  cases henv : env path with
  | error e =>
    rw [henv] at hok
    cases hok
  | ok repo =>
    rw [henv] at hok
    have hst : st = analyzePipeline a now path repo := (Except.ok.inj hok).symm
    subst hst
    obtain ⟨_, _, hlt, _, _, _, hg⟩ := analyzePipeline_proj a now path repo
    rw [hg, hlt]
    constructor
    · exact decide_eq_true_iff
    · intro hEq
      rw [hEq]
      simp

/-- C5: when the local head hash equals the remote-tracking hash,
the analyzed status reports zero unpushed and zero unpulled commits. -/
theorem analyze_synced_zero (a : Analyzer) (ctx : Ctx) (now : Int)
    (env : String → Except String Repo) (path : String) (repo : Repo) (st : RepoStatus)
    (name : String) (lh : Nat)
    (henv : env path = Except.ok repo)
    (hok : Analyze a ctx now env path = Except.ok st)
    (hhead : repo.headRef = some (HeadRef.branch name lh))
    (href : List.lookup (remoteRefName name) repo.refs = some lh) :
    st.UnpushedCommits = 0 ∧ st.UnpulledCommits = 0 := by
  have hce := analyze_counts_eq a ctx now env path repo st henv hok
  have hz := remotePhase_counts_zero path repo
    (fun st2 => analyzeRemoteStatus_synced repo st2 name lh hhead href)
  exact ⟨hce.1.trans hz.1, hce.2.trans hz.2⟩

/-- The remote phase returns its input unchanged when local and
remote hashes differ, both resolve, and no common ancestor exists. -/
theorem analyzeRemoteStatus_unrelated (repo : Repo) (st : RepoStatus)
    (name : String) (lh rh : Nat) (lc rc : CommitObj)
    (hhead : repo.headRef = some (HeadRef.branch name lh))
    (href : List.lookup (remoteRefName name) repo.refs = some rh)
    (hne : ¬ lh = rh)
    (hfl : repo.find? lh = some lc) (hfr : repo.find? rh = some rc)
    (hdisj : ∀ x, x ∈ reachHashes repo lh → x ∉ reachHashes repo rh) :
    analyzeRemoteStatus repo st = st := by
  have hmb : mergeBase repo lc rc = [] := by
    refine mergeBase_empty_of_disjoint repo lc rc ?_
    rw [(find?_mem_hash repo lh lc hfl).2, (find?_mem_hash repo rh rc hfr).2]
    exact hdisj
  unfold analyzeRemoteStatus
  simp [hhead, href, hne, hfl, hfr, hmb]

/-- C6: with unrelated local and remote histories (no common
ancestor), Analyze still succeeds and both counts are zero. -/
theorem analyze_unrelated_zero (a : Analyzer) (ctx : Ctx) (now : Int)
    (env : String → Except String Repo) (path : String) (repo : Repo)
    (name : String) (lh rh : Nat) (lc rc : CommitObj)
    (henv : env path = Except.ok repo)
    (hhead : repo.headRef = some (HeadRef.branch name lh))
    (href : List.lookup (remoteRefName name) repo.refs = some rh)
    (hne : ¬ lh = rh)
    (hfl : repo.find? lh = some lc) (hfr : repo.find? rh = some rc)
    (hdisj : ∀ x, x ∈ reachHashes repo lh → x ∉ reachHashes repo rh) :
    ∃ st, Analyze a ctx now env path = Except.ok st ∧
      st.UnpushedCommits = 0 ∧ st.UnpulledCommits = 0 := by
  have hok : Analyze a ctx now env path = Except.ok (analyzePipeline a now path repo) := by
    unfold Analyze
    rw [henv]
  refine ⟨analyzePipeline a now path repo, hok, ?_⟩
  have hce := analyze_counts_eq a ctx now env path repo _ henv hok
  have hz := remotePhase_counts_zero path repo
    (fun st2 => analyzeRemoteStatus_unrelated repo st2 name lh rh lc rc hhead href hne hfl hfr hdisj)
  exact ⟨hce.1.trans hz.1, hce.2.trans hz.2⟩

/-- The bounded recent-history loop takes exactly the first n commits. -/
theorem recentLoop_take : ∀ (l : List CommitObj) (n : Nat),
    recentLoop l n = (l.take n).map commitRecord := by
  intro l
  induction l with
  | nil => intro n; cases n <;> rfl
  | cons c t ih =>
    intro n
    cases n with
    | zero => rfl
    | succ n =>
      show commitRecord c :: recentLoop t n = _
      rw [List.take_succ_cons, List.map_cons, ih n]

/-- The dirty fields after a successful probe: IsClean records an
empty output, and the changed-file count is zero exactly when the
output is empty. -/
theorem analyzeWorktree_some (repo : Repo) (st : RepoStatus) (out : List Char)
    (hp : repo.porcelain = some out) :
    (analyzeWorktree repo st).IsClean = decide (out.length = 0) ∧
    ((analyzeWorktree repo st).ChangedFiles = 0 ↔ out.length = 0) := by
  unfold analyzeWorktree
  rw [hp]
  dsimp only
  refine ⟨rfl, ?_⟩
  by_cases hlen : 0 < out.length
  · rw [if_pos hlen]
    constructor
    · intro h; omega
    · intro h; omega
  · rw [if_neg hlen]
    have hout : out = [] := List.length_eq_zero.mp (by omega)
    subst hout
    simp [trimRightNewlines]

/-- The clean flag and changed-file count of an analyzed status come
from the worktree phase unchanged. -/
theorem analyze_clean_eq (a : Analyzer) (ctx : Ctx) (now : Int)
    (env : String → Except String Repo) (path : String) (repo : Repo) (st : RepoStatus)
    (henv : env path = Except.ok repo)
    (hok : Analyze a ctx now env path = Except.ok st) :
    st.IsClean = (analyzeWorktree repo (analyzeBranch repo (newRepoStatus (baseName path) path))).IsClean ∧
    st.ChangedFiles = (analyzeWorktree repo (analyzeBranch repo (newRepoStatus (baseName path) path))).ChangedFiles := by
  rw [analyze_ok_eq a ctx now env path repo st henv hok]
  have hp := analyzePipeline_proj a now path repo
  have hc := pipelineCore_pres a now path repo
  have hru : remotePhase path repo = analyzeRemoteStatus repo
      (analyzeLastCommit repo (analyzeWorktree repo (analyzeBranch repo (newRepoStatus (baseName path) path)))) := rfl
  rw [hru] at hc
  have hr := analyzeRemoteStatus_pres repo
    (analyzeLastCommit repo (analyzeWorktree repo (analyzeBranch repo (newRepoStatus (baseName path) path))))
  have hl := analyzeLastCommit_pres repo
    (analyzeWorktree repo (analyzeBranch repo (newRepoStatus (baseName path) path)))
  exact ⟨hp.1.trans (hc.1.trans (hr.1.trans hl.1)),
    hp.2.1.trans (hc.2.1.trans (hr.2.1.trans hl.2.1))⟩

/-- C9: after a successful dirty probe, IsClean holds exactly when
the changed-file count is zero; after a failed probe both fields keep
their zero values, so the repository reports dirty with zero changed
files. -/
theorem analyze_clean_iff_changed (a : Analyzer) (ctx : Ctx) (now : Int)
    (env : String → Except String Repo) (path : String) (repo : Repo) (st : RepoStatus)
    (henv : env path = Except.ok repo)
    (hok : Analyze a ctx now env path = Except.ok st) :
    (∀ out, repo.porcelain = some out → ((st.IsClean = true) ↔ st.ChangedFiles = 0)) ∧
    (repo.porcelain = none → st.IsClean = false ∧ st.ChangedFiles = 0) := by
  obtain ⟨hic, hcf⟩ := analyze_clean_eq a ctx now env path repo st henv hok
  have hb := analyzeBranch_pres repo (newRepoStatus (baseName path) path)
  constructor
  · intro out hpout
    obtain ⟨w1, w2⟩ := analyzeWorktree_some repo
      (analyzeBranch repo (newRepoStatus (baseName path) path)) out hpout
    rw [hic, hcf, w1, w2]
    exact decide_eq_true_iff
  · intro hpnone
    have hwid : analyzeWorktree repo (analyzeBranch repo (newRepoStatus (baseName path) path))
        = analyzeBranch repo (newRepoStatus (baseName path) path) := by
      unfold analyzeWorktree
      rw [hpnone]
    rw [hic, hcf, hwid, hb.1, hb.2.1]
    exact ⟨rfl, rfl⟩

/-- C8: in detail mode, the recent-commit list holds at most five
records, is exactly the prefix of the newest-first log from HEAD (so
it stops early on shorter histories), and each record carries the
short hash, the author, the first message line and the timestamp. -/
theorem analyze_recent_bounded (a : Analyzer) (ctx : Ctx) (now : Int)
    (env : String → Except String Repo) (path : String) (repo : Repo) (st : RepoStatus)
    (henv : env path = Except.ok repo)
    (hok : Analyze a ctx now env path = Except.ok st)
    (hd : a.detailMode = true) :
    st.RecentCommits.length ≤ 5 ∧
    (repo.headRef = none → st.RecentCommits = []) ∧
    (∀ r, repo.headRef = some r →
      st.RecentCommits = ((logFromHash repo r.hash).take 5).map commitRecord ∧
      st.RecentCommits.length = min 5 (logFromHash repo r.hash).length) := by
  have hst := analyze_ok_eq a ctx now env path repo st henv hok
  subst hst
  have hp := (analyzePipeline_proj a now path repo).2.2.2.2.2.1
  have hcore : (pipelineCore a now path repo).RecentCommits
      = (analyzeRecentCommits repo (remotePhase path repo)).RecentCommits := by
    unfold pipelineCore
    rw [if_pos hd]
    exact (analyzeLinesChanged_pres now repo (analyzeRecentCommits repo (remotePhase path repo))).2.2.2.2.2
  have hrem : (remotePhase path repo).RecentCommits = [] := by
    unfold remotePhase
    have hr := analyzeRemoteStatus_pres repo
      (analyzeLastCommit repo (analyzeWorktree repo (analyzeBranch repo (newRepoStatus (baseName path) path))))
    rw [hr.2.2.2]
    exact (chain3_counts repo (newRepoStatus (baseName path) path) rfl rfl rfl).2.2
  cases hh : repo.headRef with
  | none =>
    have hempty : (analyzeRecentCommits repo (remotePhase path repo)).RecentCommits = [] := by
      unfold analyzeRecentCommits
      rw [hh]
      exact hrem
    refine ⟨?_, fun _ => ?_, fun r hr2 => ?_⟩
    · rw [hp, hcore, hempty]; simp
    · rw [hp, hcore, hempty]
    · simp at hr2
  | some r =>
    have hrc : (analyzeRecentCommits repo (remotePhase path repo)).RecentCommits
        = recentLoop (logFromHash repo r.hash) 5 := by
      unfold analyzeRecentCommits
      rw [hh]
      dsimp only
      rw [hrem]
      simp
    have htake := recentLoop_take (logFromHash repo r.hash) 5
    refine ⟨?_, ?_, ?_⟩
    · rw [hp, hcore, hrc, htake]
      simp only [List.length_map, List.length_take]
      exact Nat.min_le_left 5 (logFromHash repo r.hash).length
    · intro h0
      simp [hh] at h0
    · intro r2 hr2
      have hrr : r2 = r := (Option.some.inj hr2).symm
      subst hrr
      constructor
      · rw [hp, hcore, hrc, htake]
      · rw [hp, hcore, hrc, htake]
        simp [List.length_take]

/-- The receive loop splits the outcome stream into its success part
and its failure part, in arrival order. -/
theorem collectResults_eq (l : List (Except ScanError RepoStatus)) :
    collectResults l = (l.filterMap okPart, l.filterMap errPart) := by
  induction l with
  | nil => rfl
  | cons r t ih =>
    cases r with
    | ok st => simp [collectResults, okPart, errPart, ih]
    | error e => simp [collectResults, okPart, errPart, ih]

/-- Every outcome is a success or a failure, never both: the two
parts of the stream account for its whole length. -/
theorem outcome_split (l : List (Except ScanError RepoStatus)) :
    (l.filterMap okPart).length + (l.filterMap errPart).length = l.length := by
  induction l with
  | nil => rfl
  | cons r t ih =>
    cases r with
    | ok st =>
      simp only [List.filterMap_cons, okPart, errPart, List.length_cons]
      omega
    | error e =>
      simp only [List.filterMap_cons, okPart, errPart, List.length_cons]
      omega

/-- With at least one worker, the pool statuses are a permutation of
the per-path successes and the errors are exactly the per-path
failures, in completion order. -/
theorem process_parts (pool : Pool) (a : Analyzer) (ctx : Ctx) (now : Int)
    (env : String → Except String Repo) (order : List String)
    (hw : 1 ≤ pool.workerCount) :
    (Process pool a ctx now env order).1.Perm
      (order.filterMap (fun p => okPart (toOutcome p (Analyze a ctx now env p)))) ∧
    (Process pool a ctx now env order).2
      = order.filterMap (fun p => errPart (toOutcome p (Analyze a ctx now env p))) := by
  unfold Process
  rw [if_neg (by omega)]
  dsimp only
  rw [collectResults_eq]
  constructor
  · have hp := List.perm_insertionSort sortLE
      ((order.map (fun p => toOutcome p (Analyze a ctx now env p))).filterMap okPart)
    refine hp.trans ?_
    rw [List.filterMap_map]
    exact List.Perm.refl _
  · dsimp only
    rw [List.filterMap_map]
    rfl

/-- With at least one worker, the pool returns one outcome per
submitted path. -/
theorem process_sum (pool : Pool) (a : Analyzer) (ctx : Ctx) (now : Int)
    (env : String → Except String Repo) (order : List String)
    (hw : 1 ≤ pool.workerCount) :
    (Process pool a ctx now env order).1.length + (Process pool a ctx now env order).2.length
      = order.length := by
  obtain ⟨hperm, herr⟩ := process_parts pool a ctx now env order hw
  rw [hperm.length_eq, herr]
  have hsplit := outcome_split (order.map (fun p => toOutcome p (Analyze a ctx now env p)))
  rw [List.filterMap_map, List.filterMap_map, List.length_map] at hsplit
  exact hsplit

/-- C1: for every list of N paths submitted to the pool (in whatever
completion order the workers produce), the statuses and errors sum to
N, the statuses are exactly the per-path successes and the errors
exactly the per-path failures: each path contributes one outcome,
never both and never neither. -/
theorem process_one_outcome_per_path (pool : Pool) (a : Analyzer) (ctx : Ctx) (now : Int)
    (env : String → Except String Repo) (paths order : List String)
    (hw : 1 ≤ pool.workerCount) (hperm : order.Perm paths) :
    (Process pool a ctx now env order).1.length + (Process pool a ctx now env order).2.length
      = paths.length ∧
    (Process pool a ctx now env order).1.Perm
      (paths.filterMap (fun p => okPart (toOutcome p (Analyze a ctx now env p)))) ∧
    (Process pool a ctx now env order).2.Perm
      (paths.filterMap (fun p => errPart (toOutcome p (Analyze a ctx now env p)))) := by
  obtain ⟨hok2, herr⟩ := process_parts pool a ctx now env order hw
  refine ⟨?_, ?_, ?_⟩
  · rw [process_sum pool a ctx now env order hw]
    exact hperm.length_eq
  · exact hok2.trans (hperm.filterMap _)
  · rw [herr]
    exact hperm.filterMap _

/-- C7 (amended): the pool threads the context into every Analyze
call but never observes cancellation: the result of Process is
identical for any two contexts, so no partial-result cut-off happens
and the return value carries no cancellation indicator. -/
theorem process_context_independent (pool : Pool) (a : Analyzer) (now : Int)
    (env : String → Except String Repo) (order : List String) (ctxA ctxB : Ctx) :
    Process pool a ctxA now env order = Process pool a ctxB now env order := rfl

/-- C7 counterexample: a run whose context is cancelled from the
start returns exactly the same value as an uncancelled run on three
paths, processes all three paths (two statuses plus one error), and
so is not distinguished by any cancellation indicator, contradicting
the claim. -/
theorem process_cancel_counterexample :
    Process { workerCount := 4 } exAnalyzer { cancelled := true } 260 exEnv [pathLin, pathSync, pathGone]
      = Process { workerCount := 4 } exAnalyzer { cancelled := false } 260 exEnv [pathLin, pathSync, pathGone] ∧
    (Process { workerCount := 4 } exAnalyzer { cancelled := true } 260 exEnv [pathLin, pathSync, pathGone]).1.length = 2 ∧
    (Process { workerCount := 4 } exAnalyzer { cancelled := true } 260 exEnv [pathLin, pathSync, pathGone]).2.length = 1 := by
  refine ⟨rfl, ?_, ?_⟩ <;> decide

/-- C2: SortByLastActive puts the most recent timestamp first, not
last: on two statuses with last activity at 100 and at 200 the sorted
order of timestamps is 200 then 100, contradicting the documented
oldest-first order. -/
theorem sortByLastActive_newest_first_bug :
    (SortByLastActive [exStatusOld, exStatusNew]).map (fun r => r.LastCommitTime) = [200, 100] ∧
    ¬ (SortByLastActive [exStatusOld, exStatusNew]).map (fun r => r.LastCommitTime) = [100, 200] := by
  refine ⟨?_, ?_⟩ <;> decide

/-- C10: TotalRepos counts exactly the successfully analyzed
statuses; paths that produced errors are excluded, so TotalRepos plus
the error count equals the number of discovered paths. -/
theorem scan_totalRepos (config : ScanConfig) (ctx : Ctx) (now : Int)
    (env : String → Except String Repo) (found order nonGit : List String) (dur : Int)
    (hw : 1 ≤ config.WorkerCount) (hperm : order.Perm found) :
    (Scan config ctx now env order nonGit dur).TotalRepos
      = (Scan config ctx now env order nonGit dur).Repos.length ∧
    (Scan config ctx now env order nonGit dur).TotalRepos
      + (Scan config ctx now env order nonGit dur).Errors.length = found.length := by
  unfold Scan
  dsimp only
  refine ⟨rfl, ?_⟩
  have hs := process_sum { workerCount := config.WorkerCount }
    { detailMode := config.DetailMode, ghostThreshold := config.GhostThreshold }
    ctx now env order hw
  rw [hs]
  exact hperm.length_eq

/-- Everything the fuelled walker yields is a stored commit. -/
theorem walkF_mem_objects (repo : Repo) : ∀ fuel stack seen c,
    c ∈ walkF repo fuel stack seen → c ∈ repo.objects := by
  intro fuel
  induction fuel with
  | zero => intro stack seen c hc; cases hc
  | succ fuel ih =>
    intro stack seen c hc
    cases stack with
    | nil => cases hc
    | cons h rest =>
      rw [walkF_succ] at hc
      by_cases hs : h ∈ seen
      · rw [if_pos hs] at hc
        exact ih rest seen c hc
      · rw [if_neg hs] at hc
        cases hf : repo.find? h with
        | none => rw [hf] at hc; cases hc
        | some c2 =>
          rw [hf] at hc
          rcases List.mem_cons.mp hc with rfl | hc2
          · exact (find?_mem_hash repo h c hf).1
          · exact ih (c2.parents ++ rest) (h :: seen) c hc2

/-- C4 (amended): on a linear acyclic history where head, remote and
a merge base all resolve and the hashes differ, the unpushed count is
the number of hashes reachable from the local head but not from the
merge base, and the unpulled count the symmetric number from the
remote hash; moreover the walker reach lists coincide exactly with
parent-pointer reachability, so the counts are genuine reachability
differences.  (On non-linear histories the code instead counts every
commit the log walk visits before first meeting the base, which can
exceed the reachability difference; see the counterexample.) -/
theorem analyzeRemote_linear_counts (repo : Repo) (st : RepoStatus)
    (rank : Nat → Nat) (name : String) (lh rh : Nat) (lc rc mb : CommitObj)
    (rest : List CommitObj)
    (hlin : LinearRepo repo) (hrank : RankedBy repo rank)
    (hclosed : ClosedRepo repo) (hnodup : (repo.objects.map (fun c => c.hash)).Nodup)
    (hhead : repo.headRef = some (HeadRef.branch name lh))
    (href : List.lookup (remoteRefName name) repo.refs = some rh)
    (hne : ¬ lh = rh)
    (hfl : repo.find? lh = some lc) (hfr : repo.find? rh = some rc)
    (hmb : mergeBase repo lc rc = mb :: rest) :
    (analyzeRemoteStatus repo st).UnpushedCommits
      = ((reachHashes repo lh).filter (fun x => decide (¬ x ∈ reachHashes repo mb.hash))).length ∧
    (analyzeRemoteStatus repo st).UnpulledCommits
      = ((reachHashes repo rh).filter (fun x => decide (¬ x ∈ reachHashes repo mb.hash))).length ∧
    (∀ x, x ∈ reachHashes repo lh ↔ Reaches repo lh x) ∧
    (∀ x, x ∈ reachHashes repo rh ↔ Reaches repo rh x) ∧
    (∀ x, x ∈ reachHashes repo mb.hash ↔ Reaches repo mb.hash x) := by
  have hlc2 := (find?_mem_hash repo lh lc hfl).2
  have hrc2 := (find?_mem_hash repo rh rc hfr).2
  have hmem : mb ∈ mergeBase repo lc rc := by
    rw [hmb]
    exact List.mem_cons_self mb rest
  have hmem2 : mb ∈ (reachList repo lc.hash).filter
      (fun c => decide (c.hash ∈ reachHashes repo rc.hash)) := by
    unfold mergeBase at hmem
    exact (List.mem_filter.mp hmem).1
  have hmemL : mb ∈ reachList repo lc.hash := (List.mem_filter.mp hmem2).1
  have hmemRdec := (List.mem_filter.mp hmem2).2
  have hbL : mb.hash ∈ reachHashes repo lh := by
    rw [← hlc2]
    exact List.mem_map_of_mem (fun d => d.hash) hmemL
  have hbR : mb.hash ∈ reachHashes repo rh := by
    rw [← hrc2]
    exact of_decide_eq_true hmemRdec
  have hmbObj : mb ∈ repo.objects := by
    have hm2 : mb ∈ walkF repo (pending repo [] + [lc.hash].length + 1) [lc.hash] [] := hmemL
    exact walkF_mem_objects repo (pending repo [] + [lc.hash].length + 1) [lc.hash] [] mb hm2
  have hmbFind : ∃ cm, repo.find? mb.hash = some cm :=
    find?_of_exists repo mb.hash ⟨mb, hmbObj, rfl⟩
  have hres : analyzeRemoteStatus repo st
      = { st with UnpushedCommits := countCommitsBetween repo mb.hash lh,
                  UnpulledCommits := countCommitsBetween repo mb.hash rh } := by
    unfold analyzeRemoteStatus
    simp [hhead, href, hne, hfl, hfr, hmb]
  rw [hres]
  refine ⟨?_, ?_, ?_, ?_, ?_⟩
  · show countCommitsBetween repo mb.hash lh = _
    exact countCommitsBetween_eq_diff repo rank hlin hrank mb.hash lh hbL
  · show countCommitsBetween repo mb.hash rh = _
    exact countCommitsBetween_eq_diff repo rank hlin hrank mb.hash rh hbR
  · intro x
    constructor
    · exact reach_mem_reaches repo rank hlin hrank (rank lh + 1) lh (by omega) x
    · intro hr
      exact reaches_mem_reach repo rank hlin hrank hclosed hnodup lh x hr ⟨lc, hfl⟩
  · intro x
    constructor
    · exact reach_mem_reaches repo rank hlin hrank (rank rh + 1) rh (by omega) x
    · intro hr
      exact reaches_mem_reach repo rank hlin hrank hclosed hnodup rh x hr ⟨rc, hfr⟩
  · intro x
    constructor
    · exact reach_mem_reaches repo rank hlin hrank (rank mb.hash + 1) mb.hash (by omega) x
    · intro hr
      exact reaches_mem_reach repo rank hlin hrank hclosed hnodup mb.hash x hr hmbFind

/-- C4 counterexample: on the merge history, the remote phase reports
three unpushed commits (the walk from head 4 visits 4, 3 and 1 before
first meeting the merge base 2), while only two hashes are reachable
from the head but not from the base; the two quantities differ, so
the unpushed count is not the reachability difference the claim
states. -/
theorem analyzeRemote_merge_counterexample :
    (analyzeRemoteStatus exRepoMerge (newRepoStatus ("merge") pathMerge)).UnpushedCommits = 3 ∧
    reachHashes exRepoMerge 4 = [4, 3, 1, 2] ∧
    reachHashes exRepoMerge 2 = [2, 1] ∧
    ((reachHashes exRepoMerge 4).filter (fun x => decide (¬ x ∈ reachHashes exRepoMerge 2))).length = 2 ∧
    ¬ ((analyzeRemoteStatus exRepoMerge (newRepoStatus ("merge") pathMerge)).UnpushedCommits
        = ((reachHashes exRepoMerge 4).filter (fun x => decide (¬ x ∈ reachHashes exRepoMerge 2))).length) := by
  refine ⟨?_, ?_, ?_, ?_, ?_⟩ <;> decide

/-- Witness for C1: a three-path run (two opening, one failing) in a
completion order different from the submission order satisfies the
partition property. -/
theorem process_one_outcome_per_path_witness :
    (1 : Int) ≤ ({ workerCount := 4 } : Pool).workerCount ∧
    ([pathSync, pathGone, pathLin] : List String).Perm [pathLin, pathSync, pathGone] ∧
    ((Process { workerCount := 4 } exAnalyzer { cancelled := false } 260 exEnv [pathSync, pathGone, pathLin]).1.length
        + (Process { workerCount := 4 } exAnalyzer { cancelled := false } 260 exEnv [pathSync, pathGone, pathLin]).2.length
        = ([pathLin, pathSync, pathGone] : List String).length ∧
      (Process { workerCount := 4 } exAnalyzer { cancelled := false } 260 exEnv [pathSync, pathGone, pathLin]).1.Perm
        (([pathLin, pathSync, pathGone] : List String).filterMap
          (fun p => okPart (toOutcome p (Analyze exAnalyzer { cancelled := false } 260 exEnv p)))) ∧
      (Process { workerCount := 4 } exAnalyzer { cancelled := false } 260 exEnv [pathSync, pathGone, pathLin]).2.Perm
        (([pathLin, pathSync, pathGone] : List String).filterMap
          (fun p => errPart (toOutcome p (Analyze exAnalyzer { cancelled := false } 260 exEnv p))))) :=
  ⟨by decide, by decide,
    process_one_outcome_per_path { workerCount := 4 } exAnalyzer { cancelled := false } 260 exEnv
      [pathLin, pathSync, pathGone] [pathSync, pathGone, pathLin] (by decide) (by decide)⟩

/-- Witness for C3: the synced one-commit repository at instant 260
with threshold 50. -/
theorem analyze_isGhost_iff_witness :
    Analyze exAnalyzer { cancelled := false } 260 exEnvAll pathSync
        = Except.ok (analyzePipeline exAnalyzer 260 pathSync exRepoSync) ∧
    (((analyzePipeline exAnalyzer 260 pathSync exRepoSync).IsGhost = true ↔
        260 - (analyzePipeline exAnalyzer 260 pathSync exRepoSync).LastCommitTime > exAnalyzer.ghostThreshold) ∧
      (260 - (analyzePipeline exAnalyzer 260 pathSync exRepoSync).LastCommitTime = exAnalyzer.ghostThreshold →
        (analyzePipeline exAnalyzer 260 pathSync exRepoSync).IsGhost = false)) :=
  ⟨by decide,
    analyze_isGhost_iff exAnalyzer { cancelled := false } 260 exEnvAll pathSync
      (analyzePipeline exAnalyzer 260 pathSync exRepoSync) (by decide)⟩

/-- Witness for C4 (amended): the linear diverged history with one
local-only and one remote-only commit over a common root. -/
theorem analyzeRemote_linear_counts_witness :
    LinearRepo exRepoLin ∧
    RankedBy exRepoLin (fun n => n) ∧
    ClosedRepo exRepoLin ∧
    (exRepoLin.objects.map (fun c => c.hash)).Nodup ∧
    exRepoLin.headRef = some (HeadRef.branch ("main") 2) ∧
    List.lookup (remoteRefName ("main")) exRepoLin.refs = some 3 ∧
    ¬ (2 : Nat) = 3 ∧
    exRepoLin.find? 2 = some exLinLocal ∧
    exRepoLin.find? 3 = some exLinRemote ∧
    mergeBase exRepoLin exLinLocal exLinRemote = exLinRoot :: [] ∧
    ((analyzeRemoteStatus exRepoLin (newRepoStatus ("lin") pathLin)).UnpushedCommits
        = ((reachHashes exRepoLin 2).filter (fun x => decide (¬ x ∈ reachHashes exRepoLin exLinRoot.hash))).length ∧
      (analyzeRemoteStatus exRepoLin (newRepoStatus ("lin") pathLin)).UnpulledCommits
        = ((reachHashes exRepoLin 3).filter (fun x => decide (¬ x ∈ reachHashes exRepoLin exLinRoot.hash))).length ∧
      (∀ x, x ∈ reachHashes exRepoLin 2 ↔ Reaches exRepoLin 2 x) ∧
      (∀ x, x ∈ reachHashes exRepoLin 3 ↔ Reaches exRepoLin 3 x) ∧
      (∀ x, x ∈ reachHashes exRepoLin exLinRoot.hash ↔ Reaches exRepoLin exLinRoot.hash x)) :=
  ⟨by unfold LinearRepo; decide, by unfold RankedBy; decide, by unfold ClosedRepo; decide,
    by decide, by decide, by decide, by decide, by decide, by decide, by decide,
    analyzeRemote_linear_counts exRepoLin (newRepoStatus ("lin") pathLin) (fun n => n)
      ("main") 2 3 exLinLocal exLinRemote exLinRoot []
      (by unfold LinearRepo; decide) (by unfold RankedBy; decide) (by unfold ClosedRepo; decide)
      (by decide) (by decide) (by decide) (by decide) (by decide) (by decide) (by decide)⟩

/-- Witness for C5: the synced one-commit repository. -/
theorem analyze_synced_zero_witness :
    exEnvAll pathSync = Except.ok exRepoSync ∧
    Analyze exAnalyzer { cancelled := false } 260 exEnvAll pathSync
        = Except.ok (analyzePipeline exAnalyzer 260 pathSync exRepoSync) ∧
    exRepoSync.headRef = some (HeadRef.branch ("main") 1) ∧
    List.lookup (remoteRefName ("main")) exRepoSync.refs = some 1 ∧
    ((analyzePipeline exAnalyzer 260 pathSync exRepoSync).UnpushedCommits = 0 ∧
      (analyzePipeline exAnalyzer 260 pathSync exRepoSync).UnpulledCommits = 0) :=
  ⟨by decide, by decide, by decide, by decide,
    analyze_synced_zero exAnalyzer { cancelled := false } 260 exEnvAll pathSync exRepoSync
      (analyzePipeline exAnalyzer 260 pathSync exRepoSync) ("main") 1
      (by decide) (by decide) (by decide) (by decide)⟩

/-- Witness for C6: two unrelated root commits. -/
theorem analyze_unrelated_zero_witness :
    exEnvAll pathUnrel = Except.ok exRepoUnrelated ∧
    exRepoUnrelated.headRef = some (HeadRef.branch ("main") 1) ∧
    List.lookup (remoteRefName ("main")) exRepoUnrelated.refs = some 2 ∧
    ¬ (1 : Nat) = 2 ∧
    (∀ x, x ∈ reachHashes exRepoUnrelated 1 → x ∉ reachHashes exRepoUnrelated 2) ∧
    (∃ st, Analyze exAnalyzer { cancelled := false } 260 exEnvAll pathUnrel = Except.ok st ∧
      st.UnpushedCommits = 0 ∧ st.UnpulledCommits = 0) :=
  ⟨by decide, by decide, by decide, by decide, by decide,
    analyze_unrelated_zero exAnalyzer { cancelled := false } 260 exEnvAll pathUnrel exRepoUnrelated
      ("main") 1 2
      { hash := 1, parents := [], author := "ada", message := "local root", timeWhen := 100, addition := 0, deletion := 0 }
      { hash := 2, parents := [], author := "bob", message := "remote root", timeWhen := 90, addition := 0, deletion := 0 }
      (by decide) (by decide) (by decide) (by decide) (by decide) (by decide) (by decide)⟩

/-- Witness for C8: the six-commit history in detail mode. -/
theorem analyze_recent_bounded_witness :
    exEnvAll pathLong = Except.ok exRepoLong ∧
    Analyze exAnalyzerDetail { cancelled := false } 700 exEnvAll pathLong
        = Except.ok (analyzePipeline exAnalyzerDetail 700 pathLong exRepoLong) ∧
    exAnalyzerDetail.detailMode = true ∧
    ((analyzePipeline exAnalyzerDetail 700 pathLong exRepoLong).RecentCommits.length ≤ 5 ∧
      (exRepoLong.headRef = none → (analyzePipeline exAnalyzerDetail 700 pathLong exRepoLong).RecentCommits = []) ∧
      (∀ r, exRepoLong.headRef = some r →
        (analyzePipeline exAnalyzerDetail 700 pathLong exRepoLong).RecentCommits
            = ((logFromHash exRepoLong r.hash).take 5).map commitRecord ∧
        (analyzePipeline exAnalyzerDetail 700 pathLong exRepoLong).RecentCommits.length
            = min 5 (logFromHash exRepoLong r.hash).length)) :=
  ⟨by decide, by decide, rfl,
    analyze_recent_bounded exAnalyzerDetail { cancelled := false } 700 exEnvAll pathLong exRepoLong
      (analyzePipeline exAnalyzerDetail 700 pathLong exRepoLong) (by decide) (by decide) rfl⟩

/-- Witness for C9: the six-commit repository with one changed file. -/
theorem analyze_clean_iff_changed_witness :
    exEnvAll pathLong = Except.ok exRepoLong ∧
    Analyze exAnalyzer { cancelled := false } 700 exEnvAll pathLong
        = Except.ok (analyzePipeline exAnalyzer 700 pathLong exRepoLong) ∧
    ((∀ out, exRepoLong.porcelain = some out →
        (((analyzePipeline exAnalyzer 700 pathLong exRepoLong).IsClean = true) ↔
          (analyzePipeline exAnalyzer 700 pathLong exRepoLong).ChangedFiles = 0)) ∧
      (exRepoLong.porcelain = none →
        (analyzePipeline exAnalyzer 700 pathLong exRepoLong).IsClean = false ∧
        (analyzePipeline exAnalyzer 700 pathLong exRepoLong).ChangedFiles = 0)) :=
  ⟨by decide, by decide,
    analyze_clean_iff_changed exAnalyzer { cancelled := false } 700 exEnvAll pathLong exRepoLong
      (analyzePipeline exAnalyzer 700 pathLong exRepoLong) (by decide) (by decide)⟩

/-- Witness for C10: a three-path scan with one failing path. -/
theorem scan_totalRepos_witness :
    (1 : Int) ≤ exConfig.WorkerCount ∧
    ([pathSync, pathGone, pathLin] : List String).Perm [pathLin, pathSync, pathGone] ∧
    ((Scan exConfig { cancelled := false } 260 exEnv [pathSync, pathGone, pathLin] [] 5).TotalRepos
        = (Scan exConfig { cancelled := false } 260 exEnv [pathSync, pathGone, pathLin] [] 5).Repos.length ∧
      (Scan exConfig { cancelled := false } 260 exEnv [pathSync, pathGone, pathLin] [] 5).TotalRepos
        + (Scan exConfig { cancelled := false } 260 exEnv [pathSync, pathGone, pathLin] [] 5).Errors.length
        = ([pathLin, pathSync, pathGone] : List String).length) :=
  ⟨by decide, by decide,
    scan_totalRepos exConfig { cancelled := false } 260 exEnv
      [pathLin, pathSync, pathGone] [pathSync, pathGone, pathLin] [] 5 (by decide) (by decide)⟩
